import Mathlib

/-!
Shallow embedding of the hand-rolled growable array `vectorClass<T>` from
`vectorImplementation.cpp`, together with theorems settling the specification
claims about it.

Modelling conventions:
* C++ `int` fields (`capacity`, `current`) are modelled as `Int` (the traces
  relevant here stay far below the 32-bit range, while signed underflow of
  `current` via `pop` is essential behaviour and is preserved).
* The heap buffer `T* arr` of `capacity` slots is modelled as a `List T` whose
  length tracks the allocated size.  Indeterminate slots (fresh `new T[n]`
  storage, slots past the copied region after growth) hold a junk value `d`
  passed as a parameter; no claim reads such a slot.
* An out-of-range buffer access is undefined behaviour in C++; a write is
  modelled as a no-op and a read as `Option.none` / the junk value.  Every
  claim that depends on buffer contents is stated on states where the accesses
  are in range.
-/

namespace STLVec

/-- Read of slot `i` of a buffer; `none` models an out-of-range (UB) read. -/
def readAt (l : List T) (i : Int) : Option T :=
  if 0 ≤ i then l[i.toNat]? else none

/-- Write of slot `i` of a buffer; out-of-range writes (UB in C++) are
no-ops. -/
def writeAt (l : List T) (i : Int) (v : T) : List T :=
  if 0 ≤ i then l.set i.toNat v else l

/-- The container: `T *arr; int capacity; int current;`. -/
structure vectorClass (T : Type) where
  arr : List T
  capacity : Int
  current : Int
deriving DecidableEq

/-- Model of the constructor: `arr = new T[1]; capacity = 1; current = 0;`.
The single allocated slot is indeterminate, modelled by `d`. -/
def vinit (d : T) : vectorClass T := ⟨[d], 1, 0⟩

/-- Model of the growth branch of `push(T)`: allocate `tmep = new T[2*capacity]`,
copy `arr[i]` for `0 ≤ i < capacity`, free the old buffer, set
`capacity = capacity * 2` and adopt `arr = tmep`.  Slots past the copied
region are indeterminate (`d`); a copy from past the old buffer (impossible
in reachable states) is a UB read, also modelled by `d`. -/
def grow (d : T) (s : vectorClass T) : vectorClass T :=
  { arr := (List.range (2 * s.capacity).toNat).map
      (fun i => if i < s.capacity.toNat then s.arr.getD i d else d),
    capacity := 2 * s.capacity,
    current := s.current }

/-- Model of `void push(T data)`: `if (capacity == current)` grow, then
`arr[current] = data; current++;`. -/
def vpush (d : T) (s : vectorClass T) (data : T) : vectorClass T :=
  let s1 := if s.capacity = s.current then grow d s else s
  { s1 with arr := writeAt s1.arr s1.current data, current := s1.current + 1 }

/-- Model of `void push(T data, int index)`: the source condition
`if (index = capacity)` is an assignment, not a comparison — it overwrites the
local `index` with `capacity` and branches on whether the assigned value is
nonzero. -/
def vpushTo (d : T) (s : vectorClass T) (data : T) (index : Int) :
    vectorClass T :=
  let index := s.capacity
  if index ≠ 0 then vpush d s data
  else { s with arr := writeAt s.arr index data }

/-- Model of `void pop(T data)`: `current--;` unconditionally; `data` is
unused. -/
def vpop (s : vectorClass T) (data : T) : vectorClass T :=
  { s with current := s.current - 1 }

/-- Model of `int getSize()`: returns `current`. -/
def getSize (s : vectorClass T) : Int := s.current

/-- Model of `int getCapacity()`: returns `capacity`. -/
def getCapacity (s : vectorClass T) : Int := s.capacity

/-- Model of `T get(int index)`: `if (index < current)` print `arr[index]`;
always `return -1`.  The result pair is (returned value, print event): `neg1`
models the conversion of the literal `-1` to `T`; the second component is
`some r` when the print runs (where `r` is the buffer read being printed,
`none` standing for a UB read) and `none` when nothing is printed.  The
container is not mutated. -/
def vget (neg1 : T) (s : vectorClass T) (index : Int) : T × Option (Option T) :=
  (neg1, if index < s.current then some (readAt s.arr index) else none)

/-- The public operations of the container, for quantifying over call
sequences.  `get`, `getSize`, `getCapacity` and `print` do not mutate. -/
inductive Op (T : Type) where
  | push : T → Op T
  | pushTo : T → Int → Op T
  | pop : T → Op T
  | get : Int → Op T
  | getSize : Op T
  | getCapacity : Op T
  | print : Op T
deriving DecidableEq

/-- State transition of one public operation. -/
def step (d : T) (s : vectorClass T) : Op T → vectorClass T
  | Op.push v => vpush d s v
  | Op.pushTo v i => vpushTo d s v i
  | Op.pop v => vpop s v
  | Op.get _ => s
  | Op.getSize => s
  | Op.getCapacity => s
  | Op.print => s

/-- The state after running a sequence of public operations on a freshly
constructed container; these are exactly the reachable states. -/
def run (d : T) (ops : List (Op T)) : vectorClass T :=
  ops.foldl (step d) (vinit d)

/-- The state after `n` plain appends of `f 0, f 1, …, f (n-1)` to a freshly
constructed container. -/
def pushSeq (d : T) (f : Nat → T) : Nat → vectorClass T
  | 0 => vinit d
  | n + 1 => vpush d (pushSeq d f n) (f n)

/-- Capacities observed across `n` appends: the initial capacity followed by
`getCapacity` after each append. -/
def capTrace (d : T) (f : Nat → T) (n : Nat) : List Int :=
  (List.range (n + 1)).map (fun k => getCapacity (pushSeq d f k))

/-- The live elements: slots `[0, current)` of the buffer. -/
def liveElems (s : vectorClass T) : List T := s.arr.take s.current.toNat

/-- The representation invariant of a well-formed container state:
`1 ≤ capacity`, `0 ≤ current ≤ capacity`, and the buffer has exactly
`capacity` allocated slots. -/
def Valid (s : vectorClass T) : Prop :=
  1 ≤ s.capacity ∧ 0 ≤ s.current ∧ s.current ≤ s.capacity ∧
    s.arr.length = s.capacity.toNat

instance (s : vectorClass T) : Decidable (Valid s) :=
  inferInstanceAs (Decidable (1 ≤ s.capacity ∧ 0 ≤ s.current ∧
    s.current ≤ s.capacity ∧ s.arr.length = s.capacity.toNat))

/-- A capacity reachable by repeated doubling from 1, i.e. a power of two. -/
def IsPow2 (c : Int) : Prop := ∃ k : Nat, c = 2 ^ k

/-! Helper lemmas about lists, `grow` and `vpush`. -/

lemma take_set_succ (l : List α) (n : Nat) (v : α) (h : n < l.length) :
    (l.set n v).take (n + 1) = l.take n ++ [v] := by
  induction l generalizing n with
  | nil => simp at h
  | cons a tl ih =>
    cases n with
    | zero => simp
    | succ m =>
      simp only [List.set_cons_succ, List.take_succ_cons, List.cons_append,
        List.cons.injEq, true_and]
      exact ih m (by simpa using h)

lemma map_getD_range (l : List α) (d : α) :
    (List.range l.length).map (fun i => l.getD i d) = l := by
  apply List.ext_getElem?
  intro n
  rw [List.getElem?_map]
  by_cases h : n < l.length
  · rw [List.getElem?_range h, List.getElem?_eq_getElem h]
    simp [List.getD_eq_getElem?_getD, List.getElem?_eq_getElem h]
  · rw [List.getElem?_eq_none (by simp only [List.length_range]; omega),
      List.getElem?_eq_none (by omega)]
    rfl

lemma vpush_current (d v : T) (s : vectorClass T) :
    (vpush d s v).current = s.current + 1 := by
  simp only [vpush]
  split <;> rfl

lemma vpush_capacity (d v : T) (s : vectorClass T) :
    (vpush d s v).capacity =
      if s.capacity = s.current then 2 * s.capacity else s.capacity := by
  simp only [vpush]
  split <;> rfl

lemma grow_current (d : T) (s : vectorClass T) :
    (grow d s).current = s.current := rfl

lemma grow_cap (d : T) (s : vectorClass T) :
    (grow d s).capacity = 2 * s.capacity := rfl

lemma grow_arr_length (d : T) (s : vectorClass T) :
    (grow d s).arr.length = (2 * s.capacity).toNat := by
  simp [grow]

lemma grow_take_capacity (d : T) (s : vectorClass T)
    (hlen : s.arr.length = s.capacity.toNat) (hcap : 1 ≤ s.capacity) :
    (grow d s).arr.take s.capacity.toNat = s.arr := by
  simp only [grow]
  rw [← List.map_take, List.take_range]
  have hmin : min s.capacity.toNat (2 * s.capacity).toNat = s.capacity.toNat := by
    omega
  rw [hmin]
  have h1 : (List.range s.capacity.toNat).map
      (fun i => if i < s.capacity.toNat then s.arr.getD i d else d)
      = (List.range s.capacity.toNat).map (fun i => s.arr.getD i d) := by
    apply List.map_congr_left
    intro i hi
    rw [List.mem_range] at hi
    simp [hi]
  rw [h1, ← hlen, map_getD_range]

lemma vinit_capacity (d : T) : (vinit d).capacity = 1 := rfl

lemma vinit_current (d : T) : (vinit d).current = 0 := rfl

lemma vpushTo_eq_vpush (d v : T) (s : vectorClass T) (i : Int)
    (h : s.capacity ≠ 0) : vpushTo d s v i = vpush d s v := by
  simp only [vpushTo]
  rw [if_pos h]

lemma step_capacity_isPow2 (d : T) (s : vectorClass T) (op : Op T)
    (h : IsPow2 s.capacity) : IsPow2 (step d s op).capacity := by
  obtain ⟨k, hk⟩ := h
  have hne : s.capacity ≠ 0 := by rw [hk]; positivity
  cases op with
  | push v =>
    simp only [step, vpush_capacity]
    split
    · exact ⟨k + 1, by rw [hk]; ring⟩
    · exact ⟨k, hk⟩
  | pushTo v i =>
    simp only [step]
    rw [vpushTo_eq_vpush d v s i hne, vpush_capacity]
    split
    · exact ⟨k + 1, by rw [hk]; ring⟩
    · exact ⟨k, hk⟩
  | pop v => exact ⟨k, hk⟩
  | get i => exact ⟨k, hk⟩
  | getSize => exact ⟨k, hk⟩
  | getCapacity => exact ⟨k, hk⟩
  | print => exact ⟨k, hk⟩

lemma foldl_capacity_isPow2 (d : T) (ops : List (Op T)) (s : vectorClass T)
    (h : IsPow2 s.capacity) : IsPow2 (ops.foldl (step d) s).capacity := by
  induction ops generalizing s with
  | nil => exact h
  | cons op tl ih => exact ih _ (step_capacity_isPow2 d s op h)

lemma run_capacity_isPow2 (d : T) (ops : List (Op T)) :
    IsPow2 (run d ops).capacity :=
  foldl_capacity_isPow2 d ops (vinit d) ⟨0, rfl⟩

lemma pushSeq_current (d : T) (f : Nat → T) (n : Nat) :
    (pushSeq d f n).current = (n : Int) := by
  induction n with
  | zero => rfl
  | succ m ih =>
    simp only [pushSeq, vpush_current, ih]
    push_cast
    ring

lemma pushSeq_cap_inv (d : T) (f : Nat → T) :
    ∀ n : Nat, 1 ≤ n →
      ∃ k : Nat, (pushSeq d f n).capacity = 2 ^ k ∧
        (n : Int) ≤ (pushSeq d f n).capacity ∧
        (pushSeq d f n).capacity < 2 * n := by
  intro n hn
  induction n with
  | zero => omega
  | succ m ih =>
    rcases Nat.eq_zero_or_pos m with h0 | hm
    · subst h0
      refine ⟨0, ?_, ?_, ?_⟩ <;>
        simp [pushSeq, vpush_capacity, vinit]
    · obtain ⟨k, hk, hle, hlt⟩ := ih hm
      have hcur : (pushSeq d f m).current = (m : Int) := pushSeq_current d f m
      simp only [pushSeq, vpush_capacity]
      by_cases hc : (pushSeq d f m).capacity = (pushSeq d f m).current
      · rw [if_pos hc]
        have hcm : (pushSeq d f m).capacity = (m : Int) := hc.trans hcur
        refine ⟨k + 1, by rw [hk]; ring, ?_, ?_⟩
        · push_cast
          omega
        · push_cast
          omega
      · rw [if_neg hc]
        have hne : (pushSeq d f m).capacity ≠ (m : Int) := by
          rw [← hcur]
          exact hc
        refine ⟨k, hk, ?_, ?_⟩
        · push_cast
          omega
        · push_cast
          omega

/-! The claim theorems. -/

/-- Claim C1: on any well-formed container state (representation invariant
`Valid`) and any value, push yields length = old length + 1, stores the value
at slot old-length, leaves every previously live element unchanged in value
and relative order, and — exactly when the buffer was full — adopts a new
buffer of size 2 × capacity whose allocated length matches the new capacity;
the result is again well formed. -/
theorem push_append_spec (d v : T) (s : vectorClass T) (h : Valid s) :
    (vpush d s v).current = s.current + 1 ∧
    readAt (vpush d s v).arr s.current = some v ∧
    liveElems (vpush d s v) = liveElems s ++ [v] ∧
    (vpush d s v).capacity =
      (if s.capacity = s.current then 2 * s.capacity else s.capacity) ∧
    (vpush d s v).arr.length = (vpush d s v).capacity.toNat ∧
    Valid (vpush d s v) := by
  obtain ⟨hcap1, hcur0, hcurcap, hlen⟩ := h
  have hn1 : (s.current + 1).toNat = s.current.toNat + 1 := by omega
  by_cases hc : s.capacity = s.current
  · have harr : (vpush d s v).arr = (grow d s).arr.set s.current.toNat v := by
      simp only [vpush, if_pos hc, writeAt, grow_current, if_pos hcur0]
    have hcapa : (vpush d s v).capacity = 2 * s.capacity := by
      simp only [vpush, if_pos hc, grow_cap]
    have hlt : s.current.toNat < (grow d s).arr.length := by
      rw [grow_arr_length]; omega
    refine ⟨vpush_current d v s, ?_, ?_, ?_, ?_, ?_⟩
    · rw [harr]
      simp only [readAt, if_pos hcur0]
      exact List.getElem?_set_eq_of_lt v hlt
    · rw [liveElems, vpush_current, harr, hn1, take_set_succ _ _ _ hlt]
      have h2 : s.current.toNat = s.capacity.toNat := by omega
      rw [liveElems, h2, grow_take_capacity d s hlen hcap1, ← hlen,
        List.take_length]
    · exact vpush_capacity d v s
    · rw [harr, List.length_set, hcapa, grow_arr_length]
    · refine ⟨by rw [hcapa]; omega, by rw [vpush_current]; omega, ?_, ?_⟩
      · rw [vpush_current, hcapa]; omega
      · rw [harr, List.length_set, hcapa, grow_arr_length]
  · have hlt2 : s.current < s.capacity := by
      rcases lt_or_eq_of_le hcurcap with h1 | h1
      · exact h1
      · exact absurd h1.symm hc
    have harr : (vpush d s v).arr = s.arr.set s.current.toNat v := by
      simp only [vpush, if_neg hc, writeAt, if_pos hcur0]
    have hcapa : (vpush d s v).capacity = s.capacity := by
      simp only [vpush, if_neg hc]
    have hlt : s.current.toNat < s.arr.length := by
      rw [hlen]; omega
    refine ⟨vpush_current d v s, ?_, ?_, ?_, ?_, ?_⟩
    · rw [harr]
      simp only [readAt, if_pos hcur0]
      exact List.getElem?_set_eq_of_lt v hlt
    · rw [liveElems, vpush_current, harr, hn1, take_set_succ _ _ _ hlt]
      rfl
    · exact vpush_capacity d v s
    · rw [harr, List.length_set, hcapa, hlen]
    · refine ⟨by rw [hcapa]; omega, by rw [vpush_current]; omega, ?_, ?_⟩
      · rw [vpush_current, hcapa]; omega
      · rw [harr, List.length_set, hcapa, hlen]

/-- Witness for C1 at a concrete state: the container after one append of 7
(length 1 = capacity 1), pushing 9, which exercises the growth step. -/
theorem push_append_spec_witness :
    Valid (run (0:Int) [Op.push 7]) ∧
    ((vpush 0 (run (0:Int) [Op.push 7]) 9).current
        = (run (0:Int) [Op.push 7]).current + 1 ∧
      readAt (vpush 0 (run (0:Int) [Op.push 7]) 9).arr
        (run (0:Int) [Op.push 7]).current = some 9 ∧
      liveElems (vpush 0 (run (0:Int) [Op.push 7]) 9)
        = liveElems (run (0:Int) [Op.push 7]) ++ [9] ∧
      (vpush 0 (run (0:Int) [Op.push 7]) 9).capacity =
        (if (run (0:Int) [Op.push 7]).capacity
            = (run (0:Int) [Op.push 7]).current
          then 2 * (run (0:Int) [Op.push 7]).capacity
          else (run (0:Int) [Op.push 7]).capacity) ∧
      (vpush 0 (run (0:Int) [Op.push 7]) 9).arr.length
        = (vpush 0 (run (0:Int) [Op.push 7]) 9).capacity.toNat ∧
      Valid (vpush 0 (run (0:Int) [Op.push 7]) 9)) :=
  ⟨by decide, push_append_spec 0 9 (run (0:Int) [Op.push 7]) (by decide)⟩

/-- Claim C2 is contradicted by the code: after appending 55, 50, 510 the
element stored at index 2 is 510, yet get returns the sentinel -1 for the
valid index 2 and the same -1 for the invalid index 10; there is no OutOfRange
failure path. -/
theorem get_code_bug :
    readAt (run (0:Int) [Op.push 55, Op.push 50, Op.push 510]).arr 2
      = some 510 ∧
    (vget (-1) (run (0:Int) [Op.push 55, Op.push 50, Op.push 510]) 2).1 = -1 ∧
    (vget (-1) (run (0:Int) [Op.push 55, Op.push 50, Op.push 510]) 10).1
      = -1 ∧
    (-1 : Int) ≠ 510 := by
  decide

/-- Claim C3 is contradicted by the code: on a container holding 10, 20
(length 2), push(99, 0) does not overwrite slot 0 — it behaves as a plain
append, leaving 10 at slot 0 and growing the length to 3; no OutOfRange
failure path exists either. -/
theorem pushTo_code_bug :
    vpushTo 0 (run (0:Int) [Op.push 10, Op.push 20]) 99 0
      = vpush 0 (run (0:Int) [Op.push 10, Op.push 20]) 99 ∧
    getSize (vpushTo 0 (run (0:Int) [Op.push 10, Op.push 20]) 99 0) = 3 ∧
    readAt (vpushTo 0 (run (0:Int) [Op.push 10, Op.push 20]) 99 0).arr 0
      = some 10 := by
  decide

/-- Claim C4 is contradicted by the code: pop on a freshly constructed (empty)
container decrements the length to -1 instead of being a no-op. -/
theorem pop_underflow_code_bug :
    getSize (vinit (0 : Int)) = 0 ∧
    getSize (vpop (vinit (0 : Int)) 0) = -1 := by
  decide

/-- Claim C5 is contradicted by the code: the one-operation sequence pop from
a fresh container leaves size() = -1, violating 0 ≤ length. -/
theorem invariant_violation_code_bug :
    getSize (run (0 : Int) [Op.pop 0]) = -1 ∧
    ¬ (0 ≤ getSize (run (0 : Int) [Op.pop 0])) := by
  decide

/-- Claim C6: after exactly N ≥ 1 appends to a freshly constructed container
(initial capacity 1, no other mutating operations), the capacity is a power
of two (a value reachable by repeated doubling from 1), is ≥ N, and is the
smallest such value. -/
theorem capacity_smallest_pow2 (d : T) (f : Nat → T) (N : Nat) (hN : 1 ≤ N) :
    IsPow2 (getCapacity (pushSeq d f N)) ∧
    (N : Int) ≤ getCapacity (pushSeq d f N) ∧
    ∀ m : Int, IsPow2 m → (N : Int) ≤ m → getCapacity (pushSeq d f N) ≤ m := by
  simp only [getCapacity]
  obtain ⟨k, hk, hle, hlt⟩ := pushSeq_cap_inv d f N hN
  refine ⟨⟨k, hk⟩, hle, ?_⟩
  intro m hm hNm
  obtain ⟨j, hj⟩ := hm
  by_contra hcon
  push_neg at hcon
  have hjk : j < k := by
    rw [hk, hj] at hcon
    exact (pow_lt_pow_iff_right₀ (by norm_num : (1:Int) < 2)).mp hcon
  have h2 : (2:Int) ^ (j + 1) ≤ 2 ^ k :=
    pow_le_pow_right₀ (by norm_num) hjk
  rw [pow_succ] at h2
  rw [hk] at hlt
  rw [hj] at hNm
  omega

/-- Witness for C6 at N = 5: the capacity after 5 appends is the smallest
power of two ≥ 5, namely 8. -/
theorem capacity_smallest_pow2_witness :
    1 ≤ 5 ∧
    (IsPow2 (getCapacity (pushSeq (0:Int) (fun k => (k:Int)) 5)) ∧
     ((5:Nat) : Int) ≤ getCapacity (pushSeq (0:Int) (fun k => (k:Int)) 5) ∧
     ∀ m : Int, IsPow2 m → ((5:Nat) : Int) ≤ m →
       getCapacity (pushSeq (0:Int) (fun k => (k:Int)) 5) ≤ m) :=
  ⟨by decide, capacity_smallest_pow2 0 (fun k => (k:Int)) 5 (by decide)⟩

/-- Claim C7: on every reachable container state, value and index, the
positional push(data, index) leaves the container in exactly the state of
the plain push(data): the condition assigns the (never-zero) capacity to
index, so the append branch is always taken and the overwrite branch is
dead. -/
theorem pushTo_always_append (d : T) (ops : List (Op T)) (v : T) (i : Int) :
    vpushTo d (run d ops) v i = vpush d (run d ops) v := by
  obtain ⟨k, hk⟩ := run_capacity_isPow2 d ops
  refine vpushTo_eq_vpush d v _ i ?_
  rw [hk]
  positivity

/-- Claim C8: on every reachable container state and index, get returns the
sentinel -1 whether or not the index is valid, and produces a print event
exactly when index < length, the print carrying the buffer read at that
index. -/
theorem get_returns_sentinel (ops : List (Op Int)) (i : Int) :
    (vget (-1) (run 0 ops) i).1 = -1 ∧
    ((vget (-1) (run 0 ops) i).2 ≠ none ↔ i < (run 0 ops).current) ∧
    (vget (-1) (run 0 ops) i).2 =
      (if i < (run 0 ops).current then some (readAt (run 0 ops).arr i)
        else none) := by
  refine ⟨rfl, ?_, rfl⟩
  simp only [vget]
  split
  · simp [*]
  · simp [*]

/-- Claim C9 counterexample: appending 5 elements to a fresh container yields
the observed capacity sequence 1, 1, 2, 4, 4, 8 (initial capacity followed by
the capacity after each append), which is not the claimed sequence
1, 1, 2, 2, 4, 4, 4, 8. -/
theorem capTrace_five_counterexample :
    capTrace (0:Int) (fun k => (k:Int)) 5 = [1, 1, 2, 4, 4, 8] ∧
    capTrace (0:Int) (fun k => (k:Int)) 5 ≠ [1, 1, 2, 2, 4, 4, 4, 8] := by
  decide

/-- Claim C9 amended: appending 5 elements one at a time to a freshly
constructed container (initial capacity 1) produces the observed capacity
sequence 1, 1, 2, 4, 4, 8 across the calls (initial capacity, then after each
append), with capacity 8 after the 5th append. -/
theorem capTrace_five_amended (T : Type) (d : T) (f : Nat → T) :
    capTrace d f 5 = [1, 1, 2, 4, 4, 8] ∧
    getCapacity (pushSeq d f 5) = 8 := by
  have h0c : (pushSeq d f 0).capacity = 1 := rfl
  have h0u : (pushSeq d f 0).current = 0 := rfl
  have e1 : pushSeq d f 1 = vpush d (pushSeq d f 0) (f 0) := rfl
  have e2 : pushSeq d f 2 = vpush d (pushSeq d f 1) (f 1) := rfl
  have e3 : pushSeq d f 3 = vpush d (pushSeq d f 2) (f 2) := rfl
  have e4 : pushSeq d f 4 = vpush d (pushSeq d f 3) (f 3) := rfl
  have e5 : pushSeq d f 5 = vpush d (pushSeq d f 4) (f 4) := rfl
  have h1c : (pushSeq d f 1).capacity = 1 := by
    rw [e1, vpush_capacity, h0c, h0u]
    norm_num
  have h1u : (pushSeq d f 1).current = 1 := by
    rw [e1, vpush_current, h0u]
    norm_num
  have h2c : (pushSeq d f 2).capacity = 2 := by
    rw [e2, vpush_capacity, h1c, h1u]
    norm_num
  have h2u : (pushSeq d f 2).current = 2 := by
    rw [e2, vpush_current, h1u]
    norm_num
  have h3c : (pushSeq d f 3).capacity = 4 := by
    rw [e3, vpush_capacity, h2c, h2u]
    norm_num
  have h3u : (pushSeq d f 3).current = 3 := by
    rw [e3, vpush_current, h2u]
    norm_num
  have h4c : (pushSeq d f 4).capacity = 4 := by
    rw [e4, vpush_capacity, h3c, h3u]
    norm_num
  have h4u : (pushSeq d f 4).current = 4 := by
    rw [e4, vpush_current, h3u]
    norm_num
  have h5c : (pushSeq d f 5).capacity = 8 := by
    rw [e5, vpush_capacity, h4c, h4u]
    norm_num
  constructor
  · simp [capTrace, List.range_succ, getCapacity, h0c, h1c, h2c, h3c, h4c, h5c]
  · rw [getCapacity, h5c]

/-- Claim C10: after every finite sequence of public operations the capacity
is exactly a power of two; construction sets it to 1, the growth branch of an
append doubles it (and a non-growing append keeps it), and pop leaves it
unchanged. -/
theorem capacity_always_pow2 (T : Type) (d : T) :
    (∀ ops : List (Op T), IsPow2 (run d ops).capacity) ∧
    (run d []).capacity = 1 ∧
    (∀ s : vectorClass T, ∀ v : T, (vpush d s v).capacity =
      (if s.capacity = s.current then 2 * s.capacity else s.capacity)) ∧
    (∀ s : vectorClass T, ∀ v : T, (vpop s v).capacity = s.capacity) :=
  ⟨run_capacity_isPow2 d, rfl, fun s v => vpush_capacity d v s,
    fun s v => rfl⟩

end STLVec
